import Mathlib

/-!
Verification development for the sales-record ingestion repository
(three Go program variants: `src/main.go`, `src/unnamed/part_000`,
`src/test_4/main.go`).

The embedding is shallow: each Go function that the claims touch is
translated into a Lean function over explicit state.  The SQLite store
is modelled through the prepare/execute/commit-or-rollback contract the
programs use: a table keyed by the integer primary key `id` becomes a
function `Int → Option row`, one SQL statement becomes one store
transformer, and a transaction becomes a pure candidate store that the
run loop either keeps (commit) or discards (rollback).  Library calls
(`strconv`, `time.Parse`, `strings`) are modelled by executable Lean
counterparts of their behaviour on the data this program feeds them.
-/

/-- Calendar date as parsed by `time.Parse` with layout `1/2/06`
(month/day/two-digit-year).  SQLite compares the stored timestamps as
zero-padded `YYYY-MM-DD ...` text, which on dates is exactly the
lexicographic order on (year, month, day). -/
structure Date where
  year : Nat
  month : Nat
  day : Nat
deriving DecidableEq

/-- Lexicographic order on dates, the order SQLite's `Date<=?`
comparison uses on the stored timestamp text. -/
def dateLe (a b : Date) : Bool :=
  Nat.blt a.year b.year ||
    (Nat.beq a.year b.year &&
      (Nat.blt a.month b.month ||
        (Nat.beq a.month b.month && Nat.ble a.day b.day)))

/-! The Go standard-library string helpers the programs call
(`strings.Split`-style field splitting inside `time.Parse`,
`strconv.Atoi` / `strconv.ParseInt`, `strings.TrimSpace`,
`strings.HasSuffix`) are external collaborators; they are modelled
over `List Char` (`String.data`) so that every definition evaluates
inside the kernel. -/

/-- Splitting a character list at every `/` (the separator of the
`1/2/06` date layout). -/
def splitOnSlash : List Char → List (List Char)
  | [] => [[]]
  | c :: rest =>
    if c = '/' then [] :: splitOnSlash rest
    else
      match splitOnSlash rest with
      | [] => [[c]]
      | g :: gs => (c :: g) :: gs

/-- ASCII decimal digit test. -/
def isDigitChar (c : Char) : Bool := '0' ≤ c && c ≤ '9'

/-- Decimal number from a nonempty digit string, as `strconv`
reads one. -/
def natFromChars? (l : List Char) : Option Nat :=
  if l.isEmpty then none
  else
    l.foldl
      (fun acc c =>
        acc.bind (fun n => if isDigitChar c then some (n * 10 + (c.toNat - '0'.toNat)) else none))
      (some 0)

/-- Model of `strconv.Atoi` / the decimal case of
`strconv.ParseInt(s, 0, 64)`: optional sign followed by digits. -/
def parseIntStr (s : String) : Option Int :=
  match s.data with
  | '-' :: rest => (natFromChars? rest).map (fun n => -(n : Int))
  | '+' :: rest => (natFromChars? rest).map (fun n => (n : Int))
  | l => (natFromChars? l).map (fun n => (n : Int))

/-- Whitespace characters trimmed by `strings.TrimSpace` (the ASCII
space set; the data is ASCII). -/
def isSpaceChar (c : Char) : Bool :=
  c = ' ' || c = '\t' || c = '\n' || c = '\r'

/-- Model of `strings.TrimSpace`: drop whitespace from both ends. -/
def trimChars (l : List Char) : List Char :=
  ((l.dropWhile isSpaceChar).reverse.dropWhile isSpaceChar).reverse

/-- Model of `strings.HasSuffix`: the last characters of `l` are
exactly `tail`. -/
def endsWithChars (l tail : List Char) : Bool :=
  l.reverse.take tail.length == tail.reverse

/-- Model of Go `time.Parse("1/2/06", s)`: split on `/`, read month,
day and a two-digit year; years 69–99 map to 19xx, 00–68 to 20xx
(Go's two-digit-year rule).  Month and day bounds stand in for Go's
calendar validation. -/
def parseDate (s : String) : Option Date :=
  match splitOnSlash s.data with
  | [ms, ds, ys] =>
    match natFromChars? ms, natFromChars? ds, natFromChars? ys with
    | some m, some d, some yy =>
      if 1 ≤ m && m ≤ 12 && 1 ≤ d && d ≤ 31 && yy ≤ 99 then
        some ⟨if 69 ≤ yy then 1900 + yy else 2000 + yy, m, d⟩
      else none
    | _, _, _ => none
  | _ => none

/-- `isEmptyRecord` from the sources (identical in all three files):
true iff every string in the slice is empty. -/
def isEmptyRecord (record : List String) : Bool :=
  record.all (fun val => val == "")

/-- Row type of the `sales` table in `src/main.go` and
`src/unnamed/part_000` (`Value` is TEXT there; the Go code has no named
struct, the fields mirror the SQL columns and the loop's locals). -/
structure SRec where
  id : Int
  address : String
  suburb : String
  date : Date
  value : String
deriving DecidableEq

/-- Parsing one data row in `src/main.go` / `src/unnamed/part_000`:
`strconv.ParseInt(record[0], 0, 64)` for the id (modelled by
`parseIntStr`, the decimal case of base-0 parsing) and
`time.Parse(dateLayout, record[3])` for the date; address, suburb and
value are taken verbatim.  `none` models the row aborting the file. -/
def parseRowA (record : List String) : Option SRec :=
  match parseIntStr (record.getD 0 "") with
  | none => none
  | some id =>
    match parseDate (record.getD 3 "") with
    | none => none
    | some date => some ⟨id, record.getD 1 "", record.getD 2 "", date, record.getD 4 ""⟩

/-- The `sales` table of `main.go`/`part_000`, keyed by the `id`
primary key. -/
def Store : Type := Int → Option SRec

/-- The empty `sales` table (just created, nothing ingested). -/
def emptyStore : Store := fun _ => none

/-- `INSERT OR IGNORE INTO sales VALUES(...)`: inserts the row when the
id is absent, leaves an existing row untouched. -/
def sqlInsertOrIgnore (st : Store) (r : SRec) : Store :=
  fun i =>
    if i = r.id then
      match st r.id with
      | none => some r
      | some old => some old
    else st i

/-- The row an `UPDATE sales SET address=?, suburb=?, Date=?, Value=?`
writes over an existing row: the id column is untouched. -/
def updRec (old r : SRec) : SRec :=
  ⟨old.id, r.address, r.suburb, r.date, r.value⟩

/-- `UPDATE sales SET address=?, suburb=?, Date=?, Value=? WHERE id=?
AND Date<=?` from `src/main.go`, both date parameters bound to the
incoming row's date: the unique row with the given id is rewritten
exactly when its stored date is ≤ the incoming date. -/
def sqlUpdateDateLe (st : Store) (r : SRec) : Store :=
  fun i =>
    if i = r.id then
      match st r.id with
      | none => none
      | some old => if dateLe old.date r.date then some (updRec old r) else some old
    else st i

/-- One data row's effect in `src/main.go`: the insert-or-ignore
statement followed by the conditional update statement. -/
def stepA (st : Store) (r : SRec) : Store :=
  sqlUpdateDateLe (sqlInsertOrIgnore st r) r

/-- The data-row loop of `processFile` in `src/main.go`: skip blank
rows, abort the file on a parse error, otherwise execute the two
prepared statements. -/
def processRowsA : List (List String) → Store → Option Store
  | [], st => some st
  | record :: rest, st =>
    if isEmptyRecord record then processRowsA rest st
    else
      match parseRowA record with
      | none => none
      | some r => processRowsA rest (stepA st r)

/-- `processFile` of `src/main.go` on the whole file: reading the
header row at end of input returns nil (success, no writes); otherwise
the header is skipped and the data rows run through the loop. -/
def processFileA (rows : List (List String)) (st : Store) : Option Store :=
  match rows with
  | [] => some st
  | _ :: dataRows => processRowsA dataRows st

/-- The data-row loop of `processFile` in `src/unnamed/part_000`:
insert-or-ignore each row, and whenever the insert reports zero rows
affected (the id already existed) remember the id in the `duplicates`
set. -/
def processRowsB : List (List String) → Store → (Int → Bool) → Option (Store × (Int → Bool))
  | [], st, dups => some (st, dups)
  | record :: rest, st, dups =>
    if isEmptyRecord record then processRowsB rest st dups
    else
      match parseRowA record with
      | none => none
      | some r =>
        processRowsB rest (sqlInsertOrIgnore st r)
          (if (st r.id).isSome then fun i => if i = r.id then true else dups i else dups)

/-- `removeSalesWithIds` of `src/unnamed/part_000`: `DELETE FROM sales
WHERE id=?` for every id in the set. -/
def removeSalesWithIds (ids : Int → Bool) (st : Store) : Store :=
  fun i => if ids i then none else st i

/-- `processFile` of `src/unnamed/part_000`: skip the header (empty
input succeeds), run the insert-or-ignore loop collecting conflicting
ids, then delete every row whose id conflicted. -/
def processFileB (rows : List (List String)) (st : Store) : Option Store :=
  match rows with
  | [] => some st
  | _ :: dataRows =>
    match processRowsB dataRows st (fun _ => false) with
    | none => none
    | some (st', dups) => some (removeSalesWithIds dups st')

/-- The `record` struct of `src/test_4/main.go` (`value` is parsed to
an int there). -/
structure record where
  id : Int
  address : String
  suburb : String
  date : Date
  value : Int
deriving DecidableEq

/-- Error outcomes of `NewRecordFromStrings`: the sentinel
`emptyRecordError` versus a genuine parse failure. -/
inductive RowErr where
  | empty
  | parse
deriving DecidableEq

/-- `NewRecordFromStrings` of `src/test_4/main.go`: the empty record
sentinel first, then `strconv.Atoi` on the id, address and suburb
verbatim, `time.Parse` on the date, `strconv.Atoi` on the value
(`strconv.Atoi` is modelled by `String.toInt?`). -/
def NewRecordFromStrings (strs : List String) : Except RowErr record :=
  if isEmptyRecord strs then .error .empty
  else
    match parseIntStr (strs.getD 0 "") with
    | none => .error .parse
    | some id =>
      match parseDate (strs.getD 3 "") with
      | none => .error .parse
      | some date =>
        match parseIntStr (strs.getD 4 "") with
        | none => .error .parse
        | some value => .ok ⟨id, strs.getD 1 "", strs.getD 2 "", date, value⟩

/-- `filterDuplicates` of `src/test_4/main.go`: keep the records whose
id was inserted exactly once (`inserts` is the Go `map[int]int`,
modelled as a total function with the map's zero-value default). -/
def filterDuplicates (records : List record) (inserts : Int → Nat) : List record :=
  records.filter (fun rec => inserts rec.id = 1)

/-- The record-reading loop of `loadAndDeduplicateRecords`: accumulate
parsed records in order and count inserts per id in the `duplicates`
map; a blank row is skipped, any other error aborts. -/
def loadLoop : List (List String) → List record → (Int → Nat) → Option (List record × (Int → Nat))
  | [], records, duplicates => some (records, duplicates)
  | strs :: rest, records, duplicates =>
    match NewRecordFromStrings strs with
    | .error e => if e = RowErr.empty then loadLoop rest records duplicates else none
    | .ok rec =>
      loadLoop rest (records ++ [rec])
        (fun i => if i = rec.id then duplicates i + 1 else duplicates i)

/-- `loadAndDeduplicateRecords` of `src/test_4/main.go`: end of input
at the header read returns nil records with nil error; otherwise the
loop runs and `filterDuplicates` is applied to its result. -/
def loadAndDeduplicateRecords (rows : List (List String)) : Option (List record) :=
  match rows with
  | [] => some []
  | _ :: dataRows =>
    match loadLoop dataRows [] (fun _ => 0) with
    | none => none
    | some (records, duplicates) => some (filterDuplicates records duplicates)

/-- The loop body of `filter` in `src/test_4/main.go` with the counter
`i` explicit: records below the 400000 value threshold and records
whose trimmed address ends in AVE, CRES or PL are dropped without
touching the counter; every 10th record that survives both checks is
dropped and the counter resets. -/
def filterAux : Nat → List record → List record
  | _, [] => []
  | i, rec :: rest =>
    if rec.value < 400000 then filterAux i rest
    else
      if (endsWithChars (trimChars rec.address.data) "AVE".data ||
          endsWithChars (trimChars rec.address.data) "CRES".data ||
          endsWithChars (trimChars rec.address.data) "PL".data) then filterAux i rest
      else if i + 1 = 10 then filterAux 0 rest
      else rec :: filterAux (i + 1) rest

/-- `filter` of `src/test_4/main.go` (counter starts at zero). -/
def filter (records : List record) : List record :=
  filterAux 0 records

/-- The `sales` table of `src/test_4/main.go` (integer `Value`
column), keyed by the `id` primary key. -/
def Store4 : Type := Int → Option record

/-- The empty test_4 `sales` table. -/
def emptyStore4 : Store4 := fun _ => none

/-- `INSERT OR REPLACE INTO sales VALUES(...)`: unconditionally stores
the row under its id. -/
def insertOrReplace (st : Store4) (rec : record) : Store4 :=
  fun i => if i = rec.id then some rec else st i

/-- Chunk size used by `processFile` in `src/test_4/main.go`:
`max(len(recordsDedup)/(*goroutinesNumber), 1)` — integer (floor)
division clamped below by 1. -/
def chunkSize (n W : Nat) : Nat := max (n / W) 1

/-- The chunking loop of `processFile` in `src/test_4/main.go`,
producing the `[chunkStart, chunkEnd)` spans the loop slices out.  The
Go loop emits the current span and stops when `chunkEnd == dedupEnd`,
else advances `chunkStart := chunkEnd`, `chunkEnd := min(chunkEnd +
chunkSize, dedupEnd)`; at every call site `e ≤ n` holds, so the
termination test `e < n` coincides with the source's `e ≠ n`.  The
chunk size is passed as `k + 1` since the source value is ≥ 1. -/
def chunkSpansAux (k n start e : Nat) : List (Nat × Nat) :=
  if h : e < n then (start, e) :: chunkSpansAux k n e (min (e + (k + 1)) n)
  else [(start, e)]
termination_by n - e
decreasing_by
  simp_wf
  omega

/-- The spans of the chunking loop for `n` deduplicated records and
worker count `W` (initial span end is `min(chunkSize, dedupEnd)`). -/
def chunkSpans (n W : Nat) : List (Nat × Nat) :=
  chunkSpansAux (chunkSize n W - 1) n 0 (min (chunkSize n W) n)

/-- The chunk slices `recordsDedup[chunkStart:chunkEnd]` handed to the
worker goroutines. -/
def chunksOf (l : List record) (W : Nat) : List (List record) :=
  (chunkSpans l.length W).map (fun p => (l.drop p.1).take (p.2 - p.1))

/-- `processFile` of `src/test_4/main.go` as a store transformer: load
and deduplicate, cut the deduplicated slice into the loop's chunks,
filter each chunk (the counter is a local of each worker's `filter`
call), and write every accepted record with `INSERT OR REPLACE`.  The
channel interleaving of the workers is nondeterministic, but after
deduplication all written ids are distinct, so every interleaving
produces this store; the chunk order is the canonical representative.
The concurrency of the hand-off itself is modelled separately by
`PipeStep`. -/
def processFileC (rows : List (List String)) (W : Nat) (st : Store4) : Option Store4 :=
  match loadAndDeduplicateRecords rows with
  | none => none
  | some recs => some ((((chunksOf recs W).map filter).flatten).foldl insertOrReplace st)

/-- The per-file commit-or-rollback loop shared by all three `main`
functions: each file is processed in its own transaction; success
commits (the candidate store is kept), an error rolls back (the store
is left exactly as before the file) and `log.Fatal` stops the run.
The Bool records whether the run completed without failure. -/
def runFiles {σ : Type} (pf : List (List String) → σ → Option σ) :
    List (List (List String)) → σ → σ × Bool
  | [], st => (st, true)
  | f :: rest, st =>
    match pf f st with
    | none => (st, false)
    | some st' => runFiles pf rest st'

/-- Sequential composition of successfully committed files (the store
reached after a prefix of the run, provided every file in it
succeeded). -/
def foldOk {σ : Type} (pf : List (List String) → σ → Option σ) :
    List (List (List String)) → σ → Option σ
  | [], st => some st
  | f :: rest, st =>
    match pf f st with
    | none => none
    | some st' => foldOk pf rest st'

/-- The full ordered sequence of valid records parsed from one file's
data rows in `src/main.go` / `src/unnamed/part_000` terms: blank rows
skipped, any malformed row fails the whole file. -/
def parseRowsAB : List (List String) → Option (List SRec)
  | [] => some []
  | record :: rest =>
    if isEmptyRecord record then parseRowsAB rest
    else
      match parseRowA record with
      | none => none
      | some r => (parseRowsAB rest).map (fun rs => r :: rs)

/-- The full ordered sequence of valid records parsed from one file's
data rows in `src/test_4/main.go` terms. -/
def parseRows4 : List (List String) → Option (List record)
  | [] => some []
  | strs :: rest =>
    match NewRecordFromStrings strs with
    | .error e => if e = RowErr.empty then parseRows4 rest else none
    | .ok rec => (parseRows4 rest).map (fun rs => rec :: rs)

/-- Number of occurrences of id `i` in a record sequence (test_4
records). -/
def countId4 (recs : List record) (i : Int) : Nat :=
  (recs.filter (fun r => r.id = i)).length

/-- Number of occurrences of id `i` in a record sequence
(main.go/part_000 records). -/
def countIdS (recs : List SRec) (i : Int) : Nat :=
  (recs.filter (fun r => r.id = i)).length

/-- Modelled from the spec's wording of the business filter (for
comparison with the source's `filter`): a record is rejected when its
value is below the fixed minimum threshold 400000, or its trimmed
address ends with one of the excluded street-type suffixes AVE, CRES,
PL; among the remaining records, every 10th in the rolling count of
otherwise-accepted records is dropped and the counter resets; all
other records are kept in input order. -/
def rejectedByPredicates (rec : record) : Bool :=
  rec.value < 400000 ||
    (endsWithChars (trimChars rec.address.data) "AVE".data ||
      endsWithChars (trimChars rec.address.data) "CRES".data ||
      endsWithChars (trimChars rec.address.data) "PL".data)

/-- Spec-side rolling-count filter: `cnt` counts otherwise-accepted
records since the last periodic drop. -/
def filterSpecAux : Nat → List record → List record
  | _, [] => []
  | cnt, rec :: rest =>
    if rejectedByPredicates rec then filterSpecAux cnt rest
    else if cnt + 1 = 10 then filterSpecAux 0 rest
    else rec :: filterSpecAux (cnt + 1) rest

/-- Spec-side business filter, counter starting at zero. -/
def filterSpec (records : List record) : List record :=
  filterSpecAux 0 records

/-- State of the fan-in pipeline of `processFile` in
`src/test_4/main.go`: `pending` holds, per worker goroutine, the
accepted records it has not yet pushed into the unbuffered channel;
`written` is what the writer has received and written; `terminated`
records that the `doneCh` branch of the writer's select has fired.
Because the data channel is unbuffered and the writer is its only
receiver and writes each record before the next select iteration, one
send-receive-write hand-off is a single transition. -/
structure PipeState where
  pending : List (List record)
  written : List record
  terminated : Bool
deriving DecidableEq

/-- Transitions of the pipeline: a worker with a pending record hands
it to the writer (the writer is still in its select loop), or — once
every worker has emitted everything, which is when `wg.Wait()` returns
and `doneCh` is signalled — the writer's select takes the done branch
and the loop ends.  `wg.Done()` happens only after a worker's last
channel send has been received, so `doneCh` can fire only when every
pending list is empty. -/
inductive PipeStep : PipeState → PipeState → Prop
  | deliver (p₁ : List (List record)) (r : record) (rest : List record)
      (p₂ : List (List record)) (written : List record) :
      PipeStep ⟨p₁ ++ (r :: rest) :: p₂, written, false⟩
        ⟨p₁ ++ rest :: p₂, written ++ [r], false⟩
  | finish (pending : List (List record)) (written : List record)
      (h : ∀ l ∈ pending, l = []) :
      PipeStep ⟨pending, written, false⟩ ⟨pending, written, true⟩

/-- Initial pipeline state for a deduplicated record list and worker
count: each chunk's worker will emit exactly its filtered chunk;
nothing written yet. -/
def initPipe (recs : List record) (W : Nat) : PipeState :=
  ⟨(chunksOf recs W).map filter, [], false⟩

/-- Reachability in the pipeline transition system. -/
def PipeReaches (s t : PipeState) : Prop :=
  Relation.ReflTransGen PipeStep s t

/-- The effect of the `src/unnamed/part_000` insert loop on
already-parsed records: the store after insert-or-ignore of each
record in order, together with the set of ids whose insert affected
zero rows. -/
def applyBRows : List SRec → Store → (Int → Bool) → Store × (Int → Bool)
  | [], st, dups => (st, dups)
  | r :: rest, st, dups =>
    applyBRows rest (sqlInsertOrIgnore st r)
      (if (st r.id).isSome then fun i => if i = r.id then true else dups i else dups)

/-- The effect of the `src/main.go` data-row loop on already-parsed
records: both prepared statements for each record in order. -/
def applyA (recs : List SRec) (st : Store) : Store :=
  recs.foldl stepA st

/-- The effect of one `src/main.go` row on the single store entry with
its id (the two statements touch no other row): an absent id is
inserted (and the self-update rewrites it with its own fields), an
existing row is rewritten with the incoming fields exactly when its
stored date is ≤ the incoming date. -/
def stepKeyA (o : Option SRec) (r : SRec) : Option SRec :=
  match o with
  | none => some r
  | some old => if dateLe old.date r.date then some (updRec old r) else some old

/-! ## Lemmas about the business filter -/

lemma filterAux_eq_filterSpecAux (l : List record) : ∀ i : Nat, filterAux i l = filterSpecAux i l := by
  induction l with
  | nil => intro i; rfl
  | cons r rest ih =>
    intro i
    simp only [filterAux, filterSpecAux, rejectedByPredicates]
    by_cases h1 : r.value < 400000
    · simp [h1, ih]
    · by_cases h2 : (endsWithChars (trimChars r.address.data) "AVE".data ||
          endsWithChars (trimChars r.address.data) "CRES".data ||
          endsWithChars (trimChars r.address.data) "PL".data) = true
      · simp [h1, h2, ih]
      · by_cases h3 : i + 1 = 10 <;> simp [h1, h2, h3, ih]

lemma filterAux_subset (l : List record) : ∀ (i : Nat) (r : record), r ∈ filterAux i l → r ∈ l := by
  induction l with
  | nil => intro i r h; simp [filterAux] at h
  | cons x rest ih =>
    intro i r h
    simp only [filterAux] at h
    by_cases h1 : x.value < 400000
    · simp only [if_pos h1] at h; exact List.mem_cons_of_mem _ (ih i r h)
    · simp only [if_neg h1] at h
      by_cases h2 : (endsWithChars (trimChars x.address.data) "AVE".data ||
          endsWithChars (trimChars x.address.data) "CRES".data ||
          endsWithChars (trimChars x.address.data) "PL".data) = true
      · simp only [if_pos h2] at h; exact List.mem_cons_of_mem _ (ih i r h)
      · simp only [if_neg h2] at h
        by_cases h3 : i + 1 = 10
        · simp only [if_pos h3] at h; exact List.mem_cons_of_mem _ (ih 0 r h)
        · simp only [if_neg h3, List.mem_cons] at h
          rcases h with h | h
          · exact h ▸ List.mem_cons_self x rest
          · exact List.mem_cons_of_mem _ (ih (i + 1) r h)

/-! ## Lemmas about loading and deduplication -/

lemma loadLoop_eq_parseRows4 (rows : List (List String)) :
    ∀ (acc : List record) (m : Int → Nat),
      loadLoop rows acc m =
        (parseRows4 rows).map (fun recs => (acc ++ recs, fun i => m i + countId4 recs i)) := by
  induction rows with
  | nil =>
    intro acc m
    simp only [loadLoop, parseRows4, Option.map_some]
    refine congrArg some (Prod.ext ?_ ?_)
    · simp
    · funext i; simp [countId4]
  | cons strs rest ih =>
    intro acc m
    cases hrec : NewRecordFromStrings strs with
    | error e =>
      by_cases he : e = RowErr.empty
      · simp only [loadLoop, parseRows4, hrec, if_pos he, ih]
      · simp only [loadLoop, parseRows4, hrec, if_neg he, Option.map_none']
    | ok rec =>
      simp only [loadLoop, parseRows4, hrec]
      rw [ih]
      cases hp : parseRows4 rest with
      | none => rfl
      | some rs =>
        simp only [Option.map_some']
        refine congrArg some (Prod.ext ?_ ?_)
        · simp
        · funext i
          dsimp only
          by_cases hid : i = rec.id
          · subst hid
            simp [countId4, List.filter_cons]
            omega
          · have hne : ¬ rec.id = i := fun hh => hid hh.symm
            simp [if_neg hid, countId4, List.filter_cons, hne]

lemma loadAndDeduplicateRecords_eq (hdr : List String) (rows : List (List String))
    (recs : List record) (hp : parseRows4 rows = some recs) :
    loadAndDeduplicateRecords (hdr :: rows) =
      some (recs.filter (fun r => countId4 recs r.id = 1)) := by
  simp only [loadAndDeduplicateRecords, loadLoop_eq_parseRows4, hp, Option.map_some']
  refine congrArg some ?_
  simp only [filterDuplicates, List.nil_append]
  exact List.filter_congr (fun r _ => by simp)



/-! ## Claim C5: the business filter -/

/-- C5: the business filter rejects a record exactly when its value is
below the fixed minimum threshold 400000, or its whitespace-trimmed
address ends with one of the excluded street-type suffixes AVE, CRES
or PL, or it is the 10th in the rolling count of otherwise-accepted
records within its processing chunk (the counter resetting after each
such periodic drop); all other records are accepted in their input
order.  The counter is a local of each `filter` call, i.e. local to
each chunk.  Formally: the source's `filter` coincides with the filter
written from the spec's rules. -/
theorem C5_filter_matches_spec_rules : ∀ records : List record, filter records = filterSpec records :=
  fun records => filterAux_eq_filterSpecAux records 0

/-! ## Claim C7: the duplicate detector -/

/-- C7: the duplicate detector, applied to the full ordered sequence
of valid records parsed from one file, builds a frequency count keyed
by id over the whole sequence and returns exactly the subsequence of
records whose id has frequency exactly 1 — an order-preserving
`List.filter` of the original sequence. -/
theorem C7_dedup_keeps_exactly_frequency_one (hdr : List String) (rows : List (List String))
    (recs : List record) (hp : parseRows4 rows = some recs) :
    loadAndDeduplicateRecords (hdr :: rows) =
      some (recs.filter (fun r => countId4 recs r.id = 1)) :=
  loadAndDeduplicateRecords_eq hdr rows recs hp

/-- Witness for C7 on a concrete file: id 1 appears twice and is
dropped entirely, id 2 appears once and is kept. -/
theorem C7_dedup_keeps_exactly_frequency_one_witness :
    loadAndDeduplicateRecords
        [["id", "addr", "sub", "date", "val"],
         ["1", "A", "S", "1/2/20", "500000"],
         ["2", "B", "T", "1/3/20", "600000"],
         ["1", "A", "S", "1/2/20", "500000"]] =
      some [⟨2, "B", "T", ⟨2020, 1, 3⟩, 600000⟩] := by
  have h := C7_dedup_keeps_exactly_frequency_one
    ["id", "addr", "sub", "date", "val"]
    [["1", "A", "S", "1/2/20", "500000"],
     ["2", "B", "T", "1/3/20", "600000"],
     ["1", "A", "S", "1/2/20", "500000"]]
    [⟨1, "A", "S", ⟨2020, 1, 2⟩, 500000⟩,
     ⟨2, "B", "T", ⟨2020, 1, 3⟩, 600000⟩,
     ⟨1, "A", "S", ⟨2020, 1, 2⟩, 500000⟩]
    (by decide)
  rw [h]
  decide

/-! ## Claim C9: blank rows -/

/-- C9: a row whose fields are all empty strings never produces a
parse error and never yields a record: `isEmptyRecord` is true on it,
`NewRecordFromStrings` returns the blank-row sentinel (not a parse
error), and in all three programs' row loops the row is skipped with
no effect on the store, the duplicate bookkeeping or the rest of the
file. -/
theorem C9_blank_row_skipped (strs : List String) (h : ∀ s ∈ strs, s = "") :
    isEmptyRecord strs = true ∧
    NewRecordFromStrings strs = .error .empty ∧
    (∀ (rest : List (List String)) (st : Store),
      processRowsA (strs :: rest) st = processRowsA rest st) ∧
    (∀ (rest : List (List String)) (st : Store) (dups : Int → Bool),
      processRowsB (strs :: rest) st dups = processRowsB rest st dups) ∧
    (∀ (rest : List (List String)) (acc : List record) (m : Int → Nat),
      loadLoop (strs :: rest) acc m = loadLoop rest acc m) := by
  have hemp : isEmptyRecord strs = true := by
    simp only [isEmptyRecord, List.all_eq_true]
    intro x hx
    simp [h x hx]
  refine ⟨hemp, ?_, ?_, ?_, ?_⟩
  · simp [NewRecordFromStrings, hemp]
  · intro rest st; simp [processRowsA, hemp]
  · intro rest st dups; simp [processRowsB, hemp]
  · intro rest acc m; simp [loadLoop, NewRecordFromStrings, hemp]

/-- Witness for C9 at the concrete all-empty five-field row. -/
theorem C9_blank_row_skipped_witness :
    isEmptyRecord ["", "", "", "", ""] = true ∧
    NewRecordFromStrings ["", "", "", "", ""] = .error .empty ∧
    (∀ (rest : List (List String)) (st : Store),
      processRowsA (["", "", "", "", ""] :: rest) st = processRowsA rest st) ∧
    (∀ (rest : List (List String)) (st : Store) (dups : Int → Bool),
      processRowsB (["", "", "", "", ""] :: rest) st dups = processRowsB rest st dups) ∧
    (∀ (rest : List (List String)) (acc : List record) (m : Int → Nat),
      loadLoop (["", "", "", "", ""] :: rest) acc m = loadLoop rest acc m) :=
  C9_blank_row_skipped ["", "", "", "", ""] (by decide)

/-! ## Claim C10: completely empty input -/

/-- C10: for a completely empty input stream (end of input reached at
the header read), all three `processFile` variants succeed: no error
is returned and the store is untouched. -/
theorem C10_empty_input_succeeds (st : Store) (st4 : Store4) (W : Nat) :
    processFileA [] st = some st ∧
    processFileB [] st = some st ∧
    processFileC [] W st4 = some st4 := by
  refine ⟨rfl, rfl, ?_⟩
  simp [processFileC, loadAndDeduplicateRecords, chunksOf, chunkSpans, chunkSize,
    chunkSpansAux, filter, filterAux]
/-! ## Lemmas about the chunking loop -/

lemma chunkSpansAux_end (k n : Nat) :
    ∀ (d e start : Nat), n - e ≤ d → e = min (start + (k + 1)) n →
      ∀ p ∈ chunkSpansAux k n start e, p.2 = min (p.1 + (k + 1)) n := by
  intro d
  induction d with
  | zero =>
    intro e start hd he p hp
    rw [chunkSpansAux] at hp
    have : ¬ e < n := by omega
    simp only [dif_neg this, List.mem_singleton] at hp
    subst hp
    exact he
  | succ d ih =>
    intro e start hd he p hp
    rw [chunkSpansAux] at hp
    by_cases hlt : e < n
    · simp only [dif_pos hlt, List.mem_cons] at hp
      rcases hp with hp | hp
      · subst hp; exact he
      · exact ih (min (e + (k + 1)) n) e (by omega) rfl p hp
    · simp only [dif_neg hlt, List.mem_singleton] at hp
      subst hp
      exact he

lemma chunkSpansAux_flatten (k n : Nat) (l : List record) (hn : n = l.length) :
    ∀ (d e start : Nat), n - e ≤ d → start ≤ e → e ≤ n →
      ((chunkSpansAux k n start e).map (fun p => (l.drop p.1).take (p.2 - p.1))).flatten =
        (l.drop start).take (n - start) := by
  intro d
  induction d with
  | zero =>
    intro e start hd hse hen
    have he : e = n := by omega
    rw [chunkSpansAux]
    have : ¬ e < n := by omega
    simp only [dif_neg this, List.map_cons, List.map_nil, List.flatten_cons, List.flatten_nil,
      List.append_nil]
    rw [he]
  | succ d ih =>
    intro e start hd hse hen
    rw [chunkSpansAux]
    by_cases hlt : e < n
    · have hei : e ≤ min (e + (k + 1)) n := by omega
      have hin : min (e + (k + 1)) n ≤ n := by omega
      simp only [dif_pos hlt, List.map_cons, List.flatten_cons]
      rw [ih (min (e + (k + 1)) n) e (by omega) hei hin]
      have h1 : (l.drop e) = (l.drop start).drop (e - start) := by
        rw [List.drop_drop]
        congr 1
        omega
      rw [h1]
      rw [← List.take_add]
      congr 1
      omega
    · have he : e = n := by omega
      simp only [dif_neg hlt, List.map_cons, List.map_nil, List.flatten_cons, List.flatten_nil,
        List.append_nil]
      rw [he]

lemma chunkSpansAux_length (k n : Nat) :
    ∀ (d e start : Nat), n - e ≤ d → e ≤ n →
      (chunkSpansAux k n start e).length = 1 + (n - e + k) / (k + 1) := by
  intro d
  induction d with
  | zero =>
    intro e start hd hen
    have he : e = n := by omega
    rw [chunkSpansAux]
    have : ¬ e < n := by omega
    simp only [dif_neg this, List.length_singleton]
    rw [he]
    have : n - n + k = k := by omega
    rw [this, Nat.div_eq_of_lt (by omega)]
  | succ d ih =>
    intro e start hd hen
    rw [chunkSpansAux]
    by_cases hlt : e < n
    · simp only [dif_pos hlt, List.length_cons]
      rw [ih (min (e + (k + 1)) n) e (by omega) (by omega)]
      by_cases hbig : e + (k + 1) < n
      · have hmin : min (e + (k + 1)) n = e + (k + 1) := by omega
        rw [hmin]
        have h2 : n - e + k = (n - (e + (k + 1)) + k) + (k + 1) := by omega
        rw [h2, Nat.add_div_right _ (show 0 < k + 1 by omega)]
        omega
      · have hmin : min (e + (k + 1)) n = n := by omega
        rw [hmin]
        have h2 : n - n + k = k := by omega
        rw [h2, Nat.div_eq_of_lt (by omega)]
        have h3 : (n - e + k) / (k + 1) = 1 := by
          apply Nat.div_eq_of_lt_le
          · omega
          · omega
        omega
    · have he : e = n := by omega
      simp only [dif_neg hlt, List.length_singleton]
      rw [he]
      have : n - n + k = k := by omega
      rw [this, Nat.div_eq_of_lt (by omega)]
/-! ## Claim C2: chunking of the concurrent filter pipeline -/

/-- C2 counterexample: with n = 10 deduplicated records and the
default worker count W = 4, the chunking loop produces 5 chunks (of
size floor(10/4) = 2 each), not exactly W = 4 chunks of size
ceil(10/4) = 3; the claim's chunk count is wrong at this input. -/
theorem C2_chunk_count_counterexample :
    (chunkSpans 10 4).length = 5 ∧ ¬ (chunkSpans 10 4).length = 4 := by
  have h0 : chunkSpans 10 4 = chunkSpansAux 1 10 0 2 := rfl
  have h := chunkSpansAux_length 1 10 10 2 0 (by omega) (by omega)
  rw [h0, h]
  omega

/-- C2 amended: the pipeline splits the deduplicated sequence of
length n into contiguous chunks of size `chunkSize n W = max (n / W) 1`
(floor division, clamped to 1) each — not `ceil(n/W)` — except a
possibly smaller final chunk; the number of chunks is
`ceil(n / chunkSize)` (one empty chunk when n = 0), which can exceed
W; the chunk boundaries are computed by `chunkSpans n W`, a function
of n and W alone, hence deterministic.  The chunks concatenate back to
the original sequence (contiguity and full coverage). -/
theorem C2_chunking_amended (n W : Nat) :
    (∀ l : List record, l.length = n → (chunksOf l W).flatten = l) ∧
    (∀ p ∈ chunkSpans n W, p.2 - p.1 = chunkSize n W ∨ p.2 = n) ∧
    (chunkSpans n W).length =
      (if n = 0 then 1 else (n + chunkSize n W - 1) / chunkSize n W) := by
  have hc : 1 ≤ chunkSize n W := le_max_right _ _
  have hk : chunkSize n W - 1 + 1 = chunkSize n W := by omega
  refine ⟨?_, ?_, ?_⟩
  · intro l hl
    have h := chunkSpansAux_flatten (chunkSize n W - 1) n l hl.symm n
      (min (chunkSize n W) n) 0 (by omega) (by omega) (by omega)
    simp only [List.drop_zero, Nat.sub_zero] at h
    rw [chunksOf, hl, chunkSpans, h, ← hl, List.take_length]
  · intro p hp
    have hp' : p ∈ chunkSpansAux (chunkSize n W - 1) n 0 (min (chunkSize n W) n) := hp
    have h := chunkSpansAux_end (chunkSize n W - 1) n n (min (chunkSize n W) n) 0
      (by omega) (by omega) p hp'
    rw [hk] at h
    rcases Nat.le_total (p.1 + chunkSize n W) n with hle | hle <;> [left; right] <;> omega
  · have h := chunkSpansAux_length (chunkSize n W - 1) n n (min (chunkSize n W) n) 0
      (by omega) (by omega)
    rw [hk] at h
    show (chunkSpansAux (chunkSize n W - 1) n 0 (min (chunkSize n W) n)).length = _
    rw [h]
    by_cases hn0 : n = 0
    · subst hn0
      rw [if_pos rfl]
      simp only [Nat.min_zero, Nat.sub_zero, Nat.zero_add]
      rw [Nat.div_eq_of_lt (by omega)]
    · have hcn : chunkSize n W ≤ n := by
        have h1 := Nat.div_le_self n W
        rw [chunkSize]
        omega
      have hmin : min (chunkSize n W) n = chunkSize n W := by omega
      rw [hmin, if_neg hn0]
      have h2 : n + chunkSize n W - 1 = (n - chunkSize n W + (chunkSize n W - 1)) + chunkSize n W := by
        omega
      rw [h2, Nat.add_div_right _ (by omega)]
      omega

/-- Witness for C2 amended at n = 10, W = 4: a concrete 10-record
sequence is covered by the chunks, and the chunk count evaluates
to 5. -/
theorem C2_chunking_amended_witness :
    (chunksOf (List.replicate 10 ⟨1, "A", "S", ⟨2020, 1, 2⟩, 500000⟩) 4).flatten =
        List.replicate 10 ⟨1, "A", "S", ⟨2020, 1, 2⟩, 500000⟩ ∧
    (chunkSpans 10 4).length = (if (10 : Nat) = 0 then 1 else (10 + chunkSize 10 4 - 1) / chunkSize 10 4) := by
  obtain ⟨h1, h2, h3⟩ := C2_chunking_amended 10 4
  exact ⟨h1 _ (by decide), h3⟩
/-! ## Claim C1: the conditional-refresh direction -/

lemma parseRowA_of_empty (strs : List String) (h : isEmptyRecord strs = true) :
    parseRowA strs = none := by
  cases strs with
  | nil => rfl
  | cons s rest =>
    have hs : s = "" := by
      simp only [isEmptyRecord, List.all_cons, Bool.and_eq_true, beq_iff_eq] at h
      exact h.1
    subst hs
    rfl

/-- C1 counterexample: the claim's own example, run through the code.
With a stored row for id 1 dated 2020-01-10, an incoming row with id 1
and date `1/5/20` (2020-01-05 ≤ stored, which the claim says updates
the row) leaves the stored row unchanged, while an incoming row dated
`1/15/20` (2020-01-15 > stored, which the claim says does not update)
rewrites the row.  The code's `UPDATE ... WHERE id=? AND Date<=?`
fires when the stored date is ≤ the incoming date — the opposite
direction of the claim. -/
theorem C1_refresh_direction_counterexample :
    (processRowsA [["1", "NEW", "Y", "1/5/20", "600000"]]
        (fun i => if i = 1 then some ⟨1, "10 Main ST", "X", ⟨2020, 1, 10⟩, "500000"⟩ else none)).map
        (fun s => s 1) =
      some (some ⟨1, "10 Main ST", "X", ⟨2020, 1, 10⟩, "500000"⟩) ∧
    (processRowsA [["1", "NEW", "Y", "1/15/20", "600000"]]
        (fun i => if i = 1 then some ⟨1, "10 Main ST", "X", ⟨2020, 1, 10⟩, "500000"⟩ else none)).map
        (fun s => s 1) =
      some (some ⟨1, "NEW", "Y", ⟨2020, 1, 15⟩, "600000"⟩) := by
  constructor <;> decide

/-- C1 amended: in the insert-or-ignore-then-conditional-refresh
variant (`src/main.go`), after the insert-or-ignore the second pass
updates address/suburb/date/value of an existing row with the same id
only if the *stored* date is less than or equal to the *incoming* date
(keeping the latest date on conflict); with a stored row dated
2020-01-10, an incoming row dated 2020-01-05 does not update the row
and an incoming row dated 2020-01-15 does. -/
theorem C1_refresh_updates_iff_stored_le_incoming (st : Store) (strs : List String)
    (r old : SRec) (hparse : parseRowA strs = some r) (hold : st r.id = some old) :
    (processRowsA [strs] st).map (fun s => s r.id) =
      some (if dateLe old.date r.date then some (updRec old r) else some old) := by
  have hne : isEmptyRecord strs = false := by
    cases he : isEmptyRecord strs
    · rfl
    · rw [parseRowA_of_empty strs he] at hparse
      exact absurd hparse (by simp)
  simp only [processRowsA, hne, Bool.false_eq_true, if_false, hparse, Option.map_some']
  refine congrArg some ?_
  simp [stepA, sqlUpdateDateLe, sqlInsertOrIgnore, hold]

/-- Witness for C1 amended: stored row dated 2020-01-10, incoming row
dated 2020-01-15 — the stored date is ≤ the incoming date, so the row
is rewritten with the incoming fields. -/
theorem C1_refresh_updates_iff_stored_le_incoming_witness :
    (processRowsA [["1", "NEW", "Y", "1/15/20", "600000"]]
        (fun i => if i = 1 then some ⟨1, "10 Main ST", "X", ⟨2020, 1, 10⟩, "500000"⟩ else none)).map
        (fun s => s 1) =
      some (if dateLe ⟨2020, 1, 10⟩ ⟨2020, 1, 15⟩
        then some (updRec ⟨1, "10 Main ST", "X", ⟨2020, 1, 10⟩, "500000"⟩
          ⟨1, "NEW", "Y", ⟨2020, 1, 15⟩, "600000"⟩)
        else some ⟨1, "10 Main ST", "X", ⟨2020, 1, 10⟩, "500000"⟩) :=
  C1_refresh_updates_iff_stored_le_incoming
    (fun i => if i = 1 then some ⟨1, "10 Main ST", "X", ⟨2020, 1, 10⟩, "500000"⟩ else none)
    ["1", "NEW", "Y", "1/15/20", "600000"]
    ⟨1, "NEW", "Y", ⟨2020, 1, 15⟩, "600000"⟩
    ⟨1, "10 Main ST", "X", ⟨2020, 1, 10⟩, "500000"⟩
    (by decide) (by decide)

/-! ## Claim C6: per-file transactional atomicity of the run -/

lemma runFiles_fail {σ : Type} (pf : List (List String) → σ → Option σ) :
    ∀ (pre : List (List (List String))) (st st' : σ),
      foldOk pf pre st = some st' →
      ∀ (bad : List (List String)) (post : List (List (List String))),
        pf bad st' = none → runFiles pf (pre ++ bad :: post) st = (st', false) := by
  intro pre
  induction pre with
  | nil =>
    intro st st' h bad post hbad
    simp only [foldOk, Option.some_inj] at h
    subst h
    simp [runFiles, hbad]
  | cons f rest ih =>
    intro st st' h bad post hbad
    simp only [foldOk] at h
    cases hf : pf f st with
    | none => rw [hf] at h; cases h
    | some st1 =>
      rw [hf] at h
      simp only [List.cons_append, runFiles, hf]
      exact ih st1 st' h bad post hbad

/-- C6: in every variant's `main`, each file runs in its own
transaction: a failure inside a file rolls its transaction back and
`log.Fatal` stops the run, so after a run that fails on file K the
store holds exactly the state committed by files 1..K-1 — none of the
failing file's earlier rows' effects are present, and earlier files
stay committed.  Stated for the `src/main.go` ingestion
(`processFileA`) and the `src/test_4/main.go` ingestion
(`processFileC`); a parse error anywhere in a file makes the whole
file's candidate store `none`, which the run loop discards. -/
theorem C6_failing_file_leaves_prior_state :
    (∀ (pre : List (List (List String))) (bad : List (List String))
        (post : List (List (List String))) (st st' : Store),
      foldOk processFileA pre st = some st' → processFileA bad st' = none →
      runFiles processFileA (pre ++ bad :: post) st = (st', false)) ∧
    (∀ (W : Nat) (pre : List (List (List String))) (bad : List (List String))
        (post : List (List (List String))) (st st' : Store4),
      foldOk (fun f s => processFileC f W s) pre st = some st' →
      processFileC bad W st' = none →
      runFiles (fun f s => processFileC f W s) (pre ++ bad :: post) st = (st', false)) :=
  ⟨fun pre bad post st st' h hbad => runFiles_fail processFileA pre st st' h bad post hbad,
   fun W pre bad post st st' h hbad =>
     runFiles_fail (fun f s => processFileC f W s) pre st st' h bad post hbad⟩

/-- Witness for C6: a file whose second row has an unparseable id
aborts, leaving the empty store of the state before it; the same
malformed file also aborts the test_4 ingestion. -/
theorem C6_failing_file_leaves_prior_state_witness :
    runFiles processFileA
        ([] ++ [["h", "h", "h", "h", "h"], ["x", "A", "S", "1/2/20", "500000"]] :: [])
        emptyStore = (emptyStore, false) ∧
    runFiles (fun f s => processFileC f 4 s)
        ([] ++ [["h", "h", "h", "h", "h"], ["x", "A", "S", "1/2/20", "500000"]] :: [])
        emptyStore4 = (emptyStore4, false) :=
  ⟨C6_failing_file_leaves_prior_state.1 []
      [["h", "h", "h", "h", "h"], ["x", "A", "S", "1/2/20", "500000"]] [] emptyStore emptyStore
      rfl rfl,
   C6_failing_file_leaves_prior_state.2 4 []
      [["h", "h", "h", "h", "h"], ["x", "A", "S", "1/2/20", "500000"]] [] emptyStore4 emptyStore4
      rfl rfl⟩
/-! ## Claim C4: duplicated identifiers are never persisted -/

lemma processRowsB_eq_applyBRows (rows : List (List String)) :
    ∀ (st : Store) (dups : Int → Bool),
      processRowsB rows st dups =
        (parseRowsAB rows).map (fun recs => applyBRows recs st dups) := by
  induction rows with
  | nil => intro st dups; rfl
  | cons strs rest ih =>
    intro st dups
    by_cases hemp : isEmptyRecord strs
    · simp only [processRowsB, parseRowsAB, hemp, if_pos, ih]
    · cases hpr : parseRowA strs with
      | none => simp only [processRowsB, parseRowsAB, hemp, Bool.false_eq_true, if_false, hpr]; rfl
      | some r =>
        simp only [processRowsB, parseRowsAB, hemp, Bool.false_eq_true, if_false, hpr]
        rw [ih]
        cases parseRows4 rest <;> cases hrs : parseRowsAB rest <;> simp [applyBRows]

lemma applyBRows_dup (recs : List SRec) :
    ∀ (st : Store) (dups : Int → Bool) (i : Int),
      (dups i = true → (applyBRows recs st dups).2 i = true) ∧
      ((st i).isSome = true → 1 ≤ countIdS recs i → (applyBRows recs st dups).2 i = true) ∧
      ((st i).isNone = true → 2 ≤ countIdS recs i → (applyBRows recs st dups).2 i = true) := by
  induction recs with
  | nil =>
    intro st dups i
    refine ⟨fun h => h, fun _ h => ?_, fun _ h => ?_⟩ <;> simp [countIdS] at h
  | cons r rest ih =>
    intro st dups i
    have hcnt : countIdS (r :: rest) i =
        (if r.id = i then 1 else 0) + countIdS rest i := by
      simp only [countIdS, List.filter_cons]
      by_cases h : r.id = i
      · simp [h]; omega
      · simp [h]
    refine ⟨?_, ?_, ?_⟩
    · intro hd
      simp only [applyBRows]
      by_cases hsome : (st r.id).isSome
      · exact (ih _ _ i).1 (by simp [hsome]; by_cases hir : i = r.id <;> simp [hir, hd])
      · exact (ih _ _ i).1 (by simp [hsome, hd])
    · intro hsi hge
      simp only [applyBRows]
      by_cases hri : r.id = i
      · have hsome : (st r.id).isSome = true := by rw [hri]; exact hsi
        exact (ih _ _ i).1 (by simp [hsome, hri.symm])
      · have hsi' : ((sqlInsertOrIgnore st r) i).isSome = true := by
          simp only [sqlInsertOrIgnore]
          rw [if_neg (fun hh => hri hh.symm)]
          exact hsi
        have hge' : 1 ≤ countIdS rest i := by rw [hcnt, if_neg hri] at hge; omega
        exact (ih _ _ i).2.1 hsi' hge'
    · intro hni hge
      simp only [applyBRows]
      by_cases hri : r.id = i
      · have hnone : (st r.id).isSome = false := by
          rw [hri]
          simp only [Option.isNone_iff_eq_none] at hni
          simp [hni]
        have hsi' : ((sqlInsertOrIgnore st r) i).isSome = true := by
          simp only [sqlInsertOrIgnore]
          rw [if_pos hri.symm, hri]
          simp only [Option.isNone_iff_eq_none] at hni
          rw [hri] at hnone
          simp [hni]
        have hge' : 1 ≤ countIdS rest i := by rw [hcnt, if_pos hri] at hge; omega
        simp only [hnone, Bool.false_eq_true, if_false]
        exact (ih _ _ i).2.1 hsi' hge'
      · have hni' : ((sqlInsertOrIgnore st r) i).isNone = true := by
          simp only [sqlInsertOrIgnore]
          rw [if_neg (fun hh => hri hh.symm)]
          exact hni
        have hge' : 2 ≤ countIdS rest i := by rw [hcnt, if_neg hri] at hge; omega
        by_cases hsome : (st r.id).isSome
        · exact (ih _ _ i).2.2 (by simpa [hsome] using hni') hge'
        · exact (ih _ _ i).2.2 (by simpa [hsome] using hni') hge'

lemma foldl_insertOrReplace_not_mem (l : List record) :
    ∀ (st : Store4) (i : Int), (∀ r ∈ l, ¬ r.id = i) → (l.foldl insertOrReplace st) i = st i := by
  induction l with
  | nil => intro st i _; rfl
  | cons r rest ih =>
    intro st i h
    simp only [List.foldl_cons]
    rw [ih _ i (fun x hx => h x (List.mem_cons_of_mem r hx))]
    simp only [insertOrReplace]
    rw [if_neg (fun hh => h r (List.mem_cons_self r rest) hh.symm)]

/-- C4: if an identifier appears two or more times among the records
parsed from one file, then after ingesting that file alone (starting
from the empty store) no record with that identifier is present.
Stated for the `src/unnamed/part_000` ingestion (insert-or-ignore plus
purge of ids whose insert affected zero rows) and for the
`src/test_4/main.go` ingestion (frequency-based deduplication before
the filter pipeline). -/
theorem C4_duplicated_id_not_persisted (hdr : List String) (rows : List (List String)) (i : Int) :
    (∀ recsB : List SRec, parseRowsAB rows = some recsB → 2 ≤ countIdS recsB i →
      (processFileB (hdr :: rows) emptyStore).map (fun s => s i) = some none) ∧
    (∀ (recs4 : List record) (W : Nat), parseRows4 rows = some recs4 → 2 ≤ countId4 recs4 i →
      (processFileC (hdr :: rows) W emptyStore4).map (fun s => s i) = some none) := by
  constructor
  · intro recsB hp hc
    cases happ : applyBRows recsB emptyStore (fun _ => false) with
    | mk stb dupsb =>
      have hB : processRowsB rows emptyStore (fun _ => false) = some (stb, dupsb) := by
        rw [processRowsB_eq_applyBRows, hp, Option.map_some', happ]
      simp only [processFileB, hB]
      have hdup : dupsb i = true := by
        have h := (applyBRows_dup recsB emptyStore (fun _ => false) i).2.2 rfl hc
        rw [happ] at h
        exact h
      simp [removeSalesWithIds, hdup]
  · intro recs4 W hp hc
    have hld := loadAndDeduplicateRecords_eq hdr rows recs4 hp
    simp only [processFileC, hld]
    refine congrArg some ?_
    dsimp only
    rw [foldl_insertOrReplace_not_mem]
    · rfl
    · intro r hr
      rw [List.mem_flatten] at hr
      obtain ⟨fl, hfl, hrf⟩ := hr
      rw [List.mem_map] at hfl
      obtain ⟨chunk, hchunk, hflc⟩ := hfl
      subst hflc
      have hrchunk : r ∈ chunk := filterAux_subset chunk 0 r hrf
      rw [chunksOf, List.mem_map] at hchunk
      obtain ⟨p, _, hcp⟩ := hchunk
      subst hcp
      have hrded : r ∈ recs4.filter (fun x => countId4 recs4 x.id = 1) :=
        List.mem_of_mem_drop (List.mem_of_mem_take hrchunk)
      have h1 : countId4 recs4 r.id = 1 := by
        have := (List.mem_filter.mp hrded).2
        exact of_decide_eq_true this
      intro hri
      rw [hri] at h1
      omega

/-- Witness for C4: a file whose two data rows share id 1; after
ingesting it alone, id 1 is absent from the store in both variants. -/
theorem C4_duplicated_id_not_persisted_witness :
    (processFileB
        [["h", "h", "h", "h", "h"],
         ["1", "A", "S", "1/2/20", "500000"],
         ["1", "B", "T", "1/3/20", "600000"]] emptyStore).map (fun s => s 1) = some none ∧
    (processFileC
        [["h", "h", "h", "h", "h"],
         ["1", "A", "S", "1/2/20", "500000"],
         ["1", "B", "T", "1/3/20", "600000"]] 4 emptyStore4).map (fun s => s 1) = some none := by
  have h := C4_duplicated_id_not_persisted ["h", "h", "h", "h", "h"]
    [["1", "A", "S", "1/2/20", "500000"], ["1", "B", "T", "1/3/20", "600000"]] 1
  exact ⟨h.1 [⟨1, "A", "S", ⟨2020, 1, 2⟩, "500000"⟩, ⟨1, "B", "T", ⟨2020, 1, 3⟩, "600000"⟩]
      (by decide) (by decide),
    h.2 [⟨1, "A", "S", ⟨2020, 1, 2⟩, 500000⟩, ⟨1, "B", "T", ⟨2020, 1, 3⟩, 600000⟩] 4
      (by decide) (by decide)⟩
/-! ## Claim C3: idempotence of re-ingesting a file -/

lemma dateLe_iff (a b : Date) :
    dateLe a b = true ↔
      (a.year < b.year ∨ (a.year = b.year ∧
        (a.month < b.month ∨ (a.month = b.month ∧ a.day ≤ b.day)))) := by
  simp [dateLe, Nat.blt_eq, Nat.ble_eq, Nat.beq_eq_true_eq]

lemma dateLe_refl (a : Date) : dateLe a a = true := by
  rw [dateLe_iff]; omega

lemma dateLe_trans {a b c : Date} (h1 : dateLe a b = true) (h2 : dateLe b c = true) :
    dateLe a c = true := by
  rw [dateLe_iff] at h1 h2 ⊢; omega

lemma dateLe_total_of_not {a b : Date} (h : dateLe a b = false) : dateLe b a = true := by
  have h' : ¬ (dateLe a b = true) := by simp [h]
  rw [dateLe_iff] at h'
  rw [dateLe_iff]
  omega

lemma dateLe_antisymm {a b : Date} (h1 : dateLe a b = true) (h2 : dateLe b a = true) : a = b := by
  rw [dateLe_iff] at h1 h2
  obtain ⟨a1, a2, a3⟩ := a
  obtain ⟨b1, b2, b3⟩ := b
  simp only at h1 h2
  simp only [Date.mk.injEq]
  omega

lemma updRec_self (r : SRec) : updRec r r = r := rfl

lemma stepA_eval (st : Store) (r : SRec) (i : Int) :
    stepA st r i = if i = r.id then stepKeyA (st r.id) r else st i := by
  by_cases h : i = r.id
  · simp only [stepA, sqlUpdateDateLe, sqlInsertOrIgnore, if_pos h]
    cases hst : st r.id with
    | none => simp [stepKeyA, dateLe_refl, updRec_self]
    | some old => simp [stepKeyA]
  · simp [stepA, sqlUpdateDateLe, sqlInsertOrIgnore, h]

lemma applyA_eval (recs : List SRec) : ∀ (st : Store) (i : Int),
    applyA recs st i = List.foldl stepKeyA (st i) (recs.filter (fun r => r.id = i)) := by
  induction recs with
  | nil => intro st i; rfl
  | cons r rest ih =>
    intro st i
    have h1 : applyA (r :: rest) st i = applyA rest (stepA st r) i := rfl
    rw [h1, ih, stepA_eval, List.filter_cons]
    by_cases h : r.id = i
    · rw [if_pos h.symm, h, if_pos (by simp), List.foldl_cons]
    · rw [if_neg (fun hh => h hh.symm), if_neg (by simp [h])]

lemma stepKeyA_date (x : Option SRec) (r : SRec) :
    ∃ b, stepKeyA x r = some b ∧ dateLe r.date b.date = true := by
  cases x with
  | none => exact ⟨r, rfl, dateLe_refl r.date⟩
  | some old =>
    by_cases h : dateLe old.date r.date = true
    · exact ⟨updRec old r, by simp [stepKeyA, h], dateLe_refl r.date⟩
    · exact ⟨old, by simp [stepKeyA, h], dateLe_total_of_not (by simpa using h)⟩

lemma foldKey_ge (rs : List SRec) : ∀ (a : SRec),
    ∃ b, List.foldl stepKeyA (some a) rs = some b ∧ dateLe a.date b.date = true := by
  induction rs with
  | nil => intro a; exact ⟨a, rfl, dateLe_refl a.date⟩
  | cons r rest ih =>
    intro a
    simp only [List.foldl_cons]
    by_cases h : dateLe a.date r.date = true
    · rw [show stepKeyA (some a) r = some (updRec a r) from by simp [stepKeyA, h]]
      obtain ⟨b, hb, hd⟩ := ih (updRec a r)
      exact ⟨b, hb, dateLe_trans h hd⟩
    · rw [show stepKeyA (some a) r = some a from by simp [stepKeyA, h]]
      exact ih a

lemma foldKey_keep (rs : List SRec) : ∀ (a : SRec),
    (∀ r ∈ rs, dateLe a.date r.date = false) →
      List.foldl stepKeyA (some a) rs = some a := by
  induction rs with
  | nil => intro a _; rfl
  | cons r rest ih =>
    intro a h
    simp only [List.foldl_cons]
    have hr := h r (List.mem_cons_self r rest)
    rw [show stepKeyA (some a) r = some a from by simp [stepKeyA, hr]]
    exact ih a (fun s hs => h s (List.mem_cons_of_mem r hs))

lemma foldKey_sync (rs : List SRec) : ∀ (a a' : SRec), a.id = a'.id → a.date = a'.date →
    (List.foldl stepKeyA (some a) rs = List.foldl stepKeyA (some a') rs) ∨
    ((∀ r ∈ rs, dateLe a.date r.date = false) ∧
      List.foldl stepKeyA (some a) rs = some a ∧
      List.foldl stepKeyA (some a') rs = some a') := by
  induction rs with
  | nil => intro a a' _ _; right; exact ⟨by simp, rfl, rfl⟩
  | cons r rest ih =>
    intro a a' hid hd
    simp only [List.foldl_cons]
    by_cases h : dateLe a.date r.date = true
    · left
      have h' : dateLe a'.date r.date = true := by rw [← hd]; exact h
      rw [show stepKeyA (some a) r = some (updRec a r) from by simp [stepKeyA, h],
        show stepKeyA (some a') r = some (updRec a' r) from by simp [stepKeyA, h'],
        show updRec a r = updRec a' r from by simp [updRec, hid]]
    · have hf : dateLe a.date r.date = false := by simpa using h
      have hf' : dateLe a'.date r.date = false := by rw [← hd]; exact hf
      rw [show stepKeyA (some a) r = some a from by simp [stepKeyA, hf],
        show stepKeyA (some a') r = some a' from by simp [stepKeyA, hf']]
      rcases ih a a' hid hd with hl | ⟨hall, h1, h2⟩
      · left; exact hl
      · right
        refine ⟨?_, h1, h2⟩
        intro s hs
        rcases List.mem_cons.mp hs with hh | hh
        · subst hh; exact hf
        · exact hall s hh

lemma foldKey_idem (rs : List SRec) : ∀ (x : Option SRec),
    List.foldl stepKeyA (List.foldl stepKeyA x rs) rs = List.foldl stepKeyA x rs := by
  induction rs with
  | nil => intro x; rfl
  | cons r rest ih =>
    intro x
    simp only [List.foldl_cons]
    obtain ⟨a0, ha0, hra0⟩ := stepKeyA_date x r
    rw [ha0]
    obtain ⟨b, hb, hab⟩ := foldKey_ge rest a0
    rw [hb]
    have hrb : dateLe r.date b.date = true := dateLe_trans hra0 hab
    by_cases hbr : dateLe b.date r.date = true
    · have hdeq : b.date = r.date := dateLe_antisymm hbr hrb
      rw [show stepKeyA (some b) r = some (updRec b r) from by simp [stepKeyA, hbr]]
      have hidem : List.foldl stepKeyA (some b) rest = some b := by
        have h2 := ih (some a0)
        rw [hb] at h2
        exact h2
      rcases foldKey_sync rest (updRec b r) b rfl hdeq.symm with hl | ⟨hall, h1, h2⟩
      · rw [hl, hidem]
      · rw [h1]
        refine congrArg some ?_
        have hba0 : dateLe b.date a0.date = true := dateLe_trans hbr hra0
        have ha0eq : a0.date = b.date := dateLe_antisymm hab hba0
        have hkeep : List.foldl stepKeyA (some a0) rest = some a0 := by
          apply foldKey_keep
          intro s hs
          have h3 := hall s hs
          show dateLe a0.date s.date = false
          have : a0.date = r.date := by rw [ha0eq, hdeq]
          rw [this]
          exact h3
        have hba : a0 = b := by
          rw [hkeep] at hb
          exact Option.some_injective _ hb
        cases x with
        | none =>
          have : a0 = r := Option.some_injective _ ha0.symm
          rw [← hba, this, updRec_self]
        | some a =>
          by_cases har : dateLe a.date r.date = true
          · have : a0 = updRec a r := by
              rw [show stepKeyA (some a) r = some (updRec a r) from by simp [stepKeyA, har]] at ha0
              exact Option.some_injective _ ha0.symm
            rw [← hba, this]
            rfl
          · have hae : a0 = a := by
              rw [show stepKeyA (some a) r = some a from by simp [stepKeyA, har]] at ha0
              exact Option.some_injective _ ha0.symm
            exfalso
            have : a0.date = r.date := by rw [ha0eq, hdeq]
            rw [hae] at this
            rw [this] at har
            exact har (dateLe_refl r.date)
    · rw [show stepKeyA (some b) r = some b from by simp [stepKeyA, hbr]]
      have h2 := ih (some a0)
      rw [hb] at h2
      exact h2

lemma applyA_idem (recs : List SRec) (st : Store) :
    applyA recs (applyA recs st) = applyA recs st := by
  funext i
  rw [applyA_eval, applyA_eval]
  exact foldKey_idem _ (st i)

lemma processRowsA_eq_applyA (rows : List (List String)) : ∀ st : Store,
    processRowsA rows st = (parseRowsAB rows).map (fun recs => applyA recs st) := by
  induction rows with
  | nil => intro st; rfl
  | cons strs rest ih =>
    intro st
    by_cases hemp : isEmptyRecord strs
    · simp only [processRowsA, parseRowsAB, hemp, if_pos, ih]
    · cases hpr : parseRowA strs with
      | none =>
        simp only [processRowsA, parseRowsAB, hemp, Bool.false_eq_true, if_false, hpr]
        rfl
      | some r =>
        simp only [processRowsA, parseRowsAB, hemp, Bool.false_eq_true, if_false, hpr]
        rw [ih]
        cases parseRowsAB rest <;> simp [applyA]

/-- C3 counterexample: the insert-or-ignore-based ingestion of
`src/unnamed/part_000` is not idempotent.  A one-row file (id 1)
ingested once stores the row; ingested twice, the second pass's insert
affects zero rows (the id already exists), so the id is recorded as
conflicting and deleted — the store ends without id 1. -/
theorem C3_reingest_purges_instead_of_ignoring :
    (processFileB [["h", "h", "h", "h", "h"], ["1", "A", "S", "1/2/20", "500000"]]
        emptyStore).map (fun s => s 1) =
      some (some ⟨1, "A", "S", ⟨2020, 1, 2⟩, "500000"⟩) ∧
    ((processFileB [["h", "h", "h", "h", "h"], ["1", "A", "S", "1/2/20", "500000"]]
        emptyStore).bind
        (processFileB [["h", "h", "h", "h", "h"], ["1", "A", "S", "1/2/20", "500000"]])).map
        (fun s => s 1) =
      some none := by
  constructor <;> decide

/-- C3 amended: ingesting the same file twice is idempotent for the
insert-or-ignore-then-conditional-refresh ingestion of `src/main.go`
(for every input file and every starting store, a successful second
ingestion reproduces exactly the store of the first; a failing file
yields the same failure).  It does not hold for the
insert-or-ignore-then-purge variant of `src/unnamed/part_000`, where
re-ingestion deletes the rows the first ingestion stored. -/
theorem C3_reingest_idempotent_for_insert_ignore_refresh
    (rows : List (List String)) (st : Store) :
    (processFileA rows st).bind (processFileA rows) = processFileA rows st := by
  cases rows with
  | nil => rfl
  | cons hdr dataRows =>
    show (processRowsA dataRows st).bind (processFileA (hdr :: dataRows)) =
      processRowsA dataRows st
    rw [processRowsA_eq_applyA]
    cases hp : parseRowsAB dataRows with
    | none => rfl
    | some recs =>
      simp only [Option.map_some', Option.some_bind]
      show processRowsA dataRows (applyA recs st) = some (applyA recs st)
      rw [processRowsA_eq_applyA, hp]
      simp only [Option.map_some']
      exact congrArg some (applyA_idem recs st)
/-! ## Claim C8: the fan-in pipeline drains every record and terminates -/

lemma pipeStep_perm {s t : PipeState} (h : PipeStep s t) :
    (t.written ++ t.pending.flatten).Perm (s.written ++ s.pending.flatten) := by
  cases h with
  | deliver p₁ r rest p₂ written =>
    simp only [List.flatten_append, List.flatten_cons]
    rw [List.perm_iff_count]
    intro a
    simp only [List.count_append, List.count_cons]
    by_cases ha : a = r <;> simp [ha] <;> omega
  | finish pending written h => exact List.Perm.refl _

lemma pipeReaches_perm {s t : PipeState} (h : PipeReaches s t) :
    (t.written ++ t.pending.flatten).Perm (s.written ++ s.pending.flatten) := by
  induction h with
  | refl => exact List.Perm.refl _
  | tail _ hstep ih => exact (pipeStep_perm hstep).trans ih

lemma pipeReaches_terminated_empty {s t : PipeState} (h : PipeReaches s t)
    (hs : s.terminated = false) (ht : t.terminated = true) : ∀ l ∈ t.pending, l = [] := by
  induction h with
  | refl => rw [hs] at ht; cases ht
  | tail _ hstep _ =>
    cases hstep with
    | deliver p₁ r rest p₂ written => cases ht
    | finish pending written hall => exact hall

/-- C8: in the fan-in pipeline of `src/test_4/main.go`, modelled as a
transition system (one transition per unbuffered-channel hand-off from
a worker to the writer, and one for the `doneCh` signal, which can
fire only after every worker's sends have been received because
`wg.Done()` follows a worker's last send), every reachable terminated
state has the writer's written sequence equal — as a multiset, i.e.
each emitted record received and written exactly once — to everything
the workers emit (the filtered chunks), and every reachable
non-terminated state has an outgoing transition, so the writer never
blocks forever waiting on data that will not arrive. -/
theorem C8_writer_drains_all_and_never_blocks (recs : List record) (W : Nat) (t : PipeState)
    (h : PipeReaches (initPipe recs W) t) :
    (t.terminated = true → t.written.Perm (((chunksOf recs W).map filter).flatten)) ∧
    (t.terminated = false → ∃ u, PipeStep t u) := by
  constructor
  · intro ht
    have hperm := pipeReaches_perm h
    have hempty := pipeReaches_terminated_empty h rfl ht
    have hflat : t.pending.flatten = [] := by
      rw [List.flatten_eq_nil_iff]
      exact hempty
    rw [hflat, List.append_nil] at hperm
    simpa [initPipe] using hperm
  · intro ht
    obtain ⟨pending, written, term⟩ := t
    simp only at ht
    subst ht
    by_cases hall : ∀ l ∈ pending, l = []
    · exact ⟨⟨pending, written, true⟩, PipeStep.finish pending written hall⟩
    · push_neg at hall
      obtain ⟨l, hl, hlne⟩ := hall
      cases hlc : l with
      | nil => exact absurd hlc hlne
      | cons r rest =>
        subst hlc
        obtain ⟨p₁, p₂, hp⟩ := List.append_of_mem hl
        subst hp
        exact ⟨⟨p₁ ++ rest :: p₂, written ++ [r], false⟩,
          PipeStep.deliver p₁ r rest p₂ written⟩

/-- Witness for C8 on a concrete run: one worker, one accepted record;
after the hand-off and the done signal, the terminated state's written
list is a permutation of the emitted records. -/
theorem C8_writer_drains_all_and_never_blocks_witness :
    ([⟨1, "10 Main ST", "X", ⟨2020, 1, 2⟩, 500000⟩] : List record).Perm
      (((chunksOf [⟨1, "10 Main ST", "X", ⟨2020, 1, 2⟩, 500000⟩] 1).map filter).flatten) := by
  have hsp : chunkSpans 1 1 = chunkSpansAux 0 1 0 1 := rfl
  have hsp1 : chunkSpansAux 0 1 0 1 = [(0, 1)] := by
    rw [chunkSpansAux]
    simp
  have hch : chunksOf [(⟨1, "10 Main ST", "X", ⟨2020, 1, 2⟩, 500000⟩ : record)] 1 =
      [[⟨1, "10 Main ST", "X", ⟨2020, 1, 2⟩, 500000⟩]] := by
    simp [chunksOf, hsp, hsp1]
  have hf : filter [(⟨1, "10 Main ST", "X", ⟨2020, 1, 2⟩, 500000⟩ : record)] =
      [⟨1, "10 Main ST", "X", ⟨2020, 1, 2⟩, 500000⟩] := by decide
  have hinit : initPipe [⟨1, "10 Main ST", "X", ⟨2020, 1, 2⟩, 500000⟩] 1 =
      ⟨[[⟨1, "10 Main ST", "X", ⟨2020, 1, 2⟩, 500000⟩]], [], false⟩ := by
    simp [initPipe, hch, hf]
  have h1 : PipeStep ⟨[[⟨1, "10 Main ST", "X", ⟨2020, 1, 2⟩, 500000⟩]], [], false⟩
      ⟨[[]], [⟨1, "10 Main ST", "X", ⟨2020, 1, 2⟩, 500000⟩], false⟩ := by
    have h := PipeStep.deliver [] (⟨1, "10 Main ST", "X", ⟨2020, 1, 2⟩, 500000⟩ : record) [] [] []
    simpa using h
  have h2 : PipeStep ⟨[[]], [⟨1, "10 Main ST", "X", ⟨2020, 1, 2⟩, 500000⟩], false⟩
      ⟨[[]], [⟨1, "10 Main ST", "X", ⟨2020, 1, 2⟩, 500000⟩], true⟩ :=
    PipeStep.finish _ _ (by simp)
  have hreach : PipeReaches (initPipe [⟨1, "10 Main ST", "X", ⟨2020, 1, 2⟩, 500000⟩] 1)
      ⟨[[]], [⟨1, "10 Main ST", "X", ⟨2020, 1, 2⟩, 500000⟩], true⟩ := by
    rw [hinit]
    exact Relation.ReflTransGen.head h1 (Relation.ReflTransGen.head h2 Relation.ReflTransGen.refl)
  exact (C8_writer_drains_all_and_never_blocks
    [⟨1, "10 Main ST", "X", ⟨2020, 1, 2⟩, 500000⟩] 1
    ⟨[[]], [⟨1, "10 Main ST", "X", ⟨2020, 1, 2⟩, 500000⟩], true⟩ hreach).1 rfl
